import Mathlib

/-!
Shallow embedding of the adap-names "structured name" core (iteration b06):
the masking/unescaping engine, the escape-aware tokenizer of `StringName`,
the component-array representation `StringArrayName`, and the shared
immutable edit operations of `AbstractName`.

Strings are modelled as `List Char`; fallible operations return `Res`,
distinguishing `IllegalArgumentException` (argument errors, bad indices)
from `InvalidStateException` (masking violations).
-/

/-- `ESCAPE_CHARACTER` from Printable.ts. -/
def ESCAPE_CHARACTER : Char := '\\'

/-- `DEFAULT_DELIMITER` from Printable.ts. -/
def DEFAULT_DELIMITER : Char := '.'

/-- A masked component in wire form, as a list of characters. -/
abbrev MComp := List Char

/-- Error kinds thrown by the TypeScript code: `IllegalArgumentException`
for malformed arguments and out-of-range indices, `InvalidStateException`
for masking violations (the spec's MaskingError). -/
inductive NameErr where
  | illegalArgument : NameErr
  | invalidState : NameErr
deriving DecidableEq, Repr

/-- Result of a fallible operation. -/
inductive Res (α : Type) where
  | ok : α → Res α
  | err : NameErr → Res α
deriving DecidableEq, Repr

/-- Sequencing of fallible operations. -/
def Res.bind {α β : Type} (r : Res α) (f : α → Res β) : Res β :=
  match r with
  | .ok a => f a
  | .err e => .err e

/-- `AbstractName.unescape`: scans left to right; the escape character is
skipped and the following character copied literally (a trailing escape is
dropped); all other characters are copied verbatim. -/
def unescape (masked : List Char) : List Char :=
  match masked with
  | [] => []
  | c :: rest =>
    if c = ESCAPE_CHARACTER then
      match rest with
      | [] => []
      | c2 :: rest2 => c2 :: unescape rest2
    else
      c :: unescape rest

/-- `AbstractName.escapeForDelimiter`: emits the escape character before
every occurrence of the escape character or the given delimiter. -/
def escapeForDelimiter (raw : List Char) (delimiter : Char) : List Char :=
  match raw with
  | [] => []
  | c :: rest =>
    if c = ESCAPE_CHARACTER ∨ c = delimiter then
      ESCAPE_CHARACTER :: c :: escapeForDelimiter rest delimiter
    else
      c :: escapeForDelimiter rest delimiter

/-- `AbstractName.validateMasked` as a Boolean predicate: `true` iff the
walk finds no dangling escape and no unescaped delimiter. -/
def validMasked (delimiter : Char) (masked : List Char) : Bool :=
  match masked with
  | [] => true
  | c :: rest =>
    if c = ESCAPE_CHARACTER then
      match rest with
      | [] => false
      | _ :: rest2 => validMasked delimiter rest2
    else if c = delimiter then
      false
    else
      validMasked delimiter rest

/-- Canonical masking: every escape character in the string is followed by
either the escape character or the delimiter — the only characters that
`escapeForDelimiter` ever escapes. A masked string produced by
`escapeForDelimiter` for delimiter `d` always satisfies this. -/
def escTargetsOk (d : Char) (m : List Char) : Bool :=
  match m with
  | [] => true
  | c :: rest =>
    if c = ESCAPE_CHARACTER then
      match rest with
      | [] => false
      | c2 :: rest2 =>
        if c2 = ESCAPE_CHARACTER ∨ c2 = d then escTargetsOk d rest2 else false
    else
      escTargetsOk d rest

/-- The scan loop of `StringName.parseMaskedName`: `cur` is the component
accumulated so far; an escape consumes itself plus the next character into
`cur`; an unescaped delimiter pushes `cur` and starts a new component; the
final `cur` is pushed when the scan ends. -/
def parseLoop (d : Char) (cur : List Char) (source : List Char) : List (List Char) :=
  match source with
  | [] => [cur]
  | c :: rest =>
    if c = ESCAPE_CHARACTER then
      match rest with
      | [] => [cur ++ [ESCAPE_CHARACTER]]
      | c2 :: rest2 => parseLoop d (cur ++ [c, c2]) rest2
    else if c = d then
      cur :: parseLoop d [] rest
    else
      parseLoop d (cur ++ [c]) rest

/-- `StringName.parseMaskedName`: the empty source yields zero components;
otherwise the scan loop runs with an empty accumulator. -/
def parseMaskedName (d : Char) (source : List Char) : List (List Char) :=
  match source with
  | [] => []
  | _ => parseLoop d [] source

/-- JavaScript `Array.join` with a single-character separator, as used by
`StringName.withComponents` and the string renderings. -/
def joinWith (d : Char) (comps : List MComp) : List Char :=
  match comps with
  | [] => []
  | [c] => c
  | c :: cs => c ++ d :: joinWith d cs

/-- The two concrete representations of the contract. -/
inductive NameRep where
  | arr : NameRep
  | str : NameRep
deriving DecidableEq, Repr

/-- A name value: representation tag, single-character delimiter (the
constructors reject any delimiter whose length differs from one, so a
`Char` embeds it exactly), and the stored masked components. -/
structure NameValue where
  rep : NameRep
  delim : Char
  comps : List MComp
deriving DecidableEq, Repr

/-- All stored components pass `validateMasked` for the value's delimiter. -/
def validName (n : NameValue) : Bool :=
  n.comps.all (validMasked n.delim)

/-- Parse a masked string and validate every parsed component, as the
`StringName` constructor does; fails with `InvalidStateException` when a
component is not properly masked. -/
def parseValidate (d : Char) (source : List Char) : Res (List MComp) :=
  if (parseMaskedName d source).all (validMasked d) then .ok (parseMaskedName d source)
  else .err .invalidState

/-- The component list a fresh instance of the given representation would
store: `StringArrayName` validates and copies the supplied list;
`StringName` joins with the delimiter, re-parses and validates. -/
def constructComps (rep : NameRep) (d : Char) (ps : List MComp) : Res (List MComp) :=
  match rep with
  | .arr => if ps.all (validMasked d) then .ok ps else .err .invalidState
  | .str => parseValidate d (joinWith d ps)

namespace StringArrayName

/-- The `StringArrayName` constructor: validates every supplied masked
component for the delimiter, then stores an immutable copy. -/
def make (source : List MComp) (d : Char) : Res NameValue :=
  if source.all (validMasked d) then .ok ⟨.arr, d, source⟩ else .err .invalidState

end StringArrayName

namespace StringName

/-- The `StringName` constructor: parses the masked source string with the
escape-aware tokenizer, validates every parsed component, and stores the
parsed component list. -/
def make (source : List Char) (d : Char) : Res NameValue :=
  (parseValidate d source).bind (fun parsed => .ok ⟨.str, d, parsed⟩)

end StringName

/-- `withComponents`, the factory method: builds a fresh value of the same
representation and delimiter from the given component list. -/
def withComponents (n : NameValue) (ps : List MComp) : Res NameValue :=
  (constructComps n.rep n.delim ps).bind (fun cs => .ok ⟨n.rep, n.delim, cs⟩)

/-- `getNoComponents`. -/
def getNoComponents (n : NameValue) : Nat :=
  n.comps.length

/-- `getComponent`: the stored masked component, or
`IllegalArgumentException` when the index is out of range. -/
def getComponent (n : NameValue) (i : Nat) : Res MComp :=
  match n.comps[i]? with
  | some c => .ok c
  | none => .err .illegalArgument

/-- `isEmpty`. -/
def isEmpty (n : NameValue) : Bool :=
  getNoComponents n = 0

/-- Insertion into a list at position `i` (JavaScript `splice(i, 0, c)`). -/
def insertAt (ps : List MComp) (i : Nat) (c : MComp) : List MComp :=
  match i, ps with
  | 0, ps => c :: ps
  | _ + 1, [] => [c]
  | i + 1, p :: ps => p :: insertAt ps i c

/-- The list transformation of `AbstractName.setComponent`: the component is
validated first (masking), then the index is bounds-checked. -/
def setComponentCore (d : Char) (ps : List MComp) (i : Nat) (c : MComp) : Res (List MComp) :=
  if ¬ validMasked d c then .err .invalidState
  else if i < ps.length then .ok (ps.set i c)
  else .err .illegalArgument

/-- The list transformation of `AbstractName.insert`: component validated
first; `i` may equal the length (append via insert). -/
def insertCore (d : Char) (ps : List MComp) (i : Nat) (c : MComp) : Res (List MComp) :=
  if ¬ validMasked d c then .err .invalidState
  else if i ≤ ps.length then .ok (insertAt ps i c)
  else .err .illegalArgument

/-- The list transformation of `AbstractName.append`. -/
def appendCore (d : Char) (ps : List MComp) (c : MComp) : Res (List MComp) :=
  if validMasked d c then .ok (ps ++ [c]) else .err .invalidState

/-- The list transformation of `AbstractName.remove`. -/
def removeCore (ps : List MComp) (i : Nat) : Res (List MComp) :=
  if i < ps.length then .ok (ps.eraseIdx i) else .err .illegalArgument

/-- `AbstractName.setComponent`. -/
def setComponent (n : NameValue) (i : Nat) (c : MComp) : Res NameValue :=
  (setComponentCore n.delim n.comps i c).bind (withComponents n)

/-- `AbstractName.insert`. -/
def insert (n : NameValue) (i : Nat) (c : MComp) : Res NameValue :=
  (insertCore n.delim n.comps i c).bind (withComponents n)

/-- `AbstractName.append`. -/
def append (n : NameValue) (c : MComp) : Res NameValue :=
  (appendCore n.delim n.comps c).bind (withComponents n)

/-- `AbstractName.remove`. -/
def remove (n : NameValue) (i : Nat) : Res NameValue :=
  (removeCore n.comps i).bind (withComponents n)

/-- `AbstractName.concat`: pushes every component of `other` after this
value's components and hands the list to the factory method; no masking
check happens before `withComponents`. -/
def concat (a b : NameValue) : Res NameValue :=
  withComponents a (a.comps ++ b.comps)

/-- `AbstractName.asString` with an explicit delimiter argument: unescapes
every component and joins with that delimiter, no re-escaping. -/
def asStringWith (n : NameValue) (d : Char) : List Char :=
  joinWith d (n.comps.map unescape)

/-- `AbstractName.asString` with the default argument (the value's own
delimiter). -/
def asString (n : NameValue) : List Char :=
  asStringWith n n.delim

/-- `AbstractName.asDataString`: unescapes every component, re-escapes each
for the canonical default delimiter, and joins with it. -/
def asDataString (n : NameValue) : List Char :=
  joinWith DEFAULT_DELIMITER
    (n.comps.map (fun m => escapeForDelimiter (unescape m) DEFAULT_DELIMITER))

/-- The component loop of `AbstractName.isEqual`, comparing masked
components pairwise by index. -/
def compsPairwiseEq (xs ys : List MComp) : Bool :=
  match xs, ys with
  | [], _ => true
  | _ :: _, [] => false
  | x :: xs, y :: ys => x = y && compsPairwiseEq xs ys

/-- `AbstractName.isEqual` (b06): same delimiter character, same component
count, and pairwise identical masked components in order. -/
def isEqual (a b : NameValue) : Bool :=
  if a.delim ≠ b.delim then false
  else if getNoComponents a ≠ getNoComponents b then false
  else compsPairwiseEq a.comps b.comps

/-- Heap model for the immutability contract: the store holds the frozen
component arrays of every constructed value; a name holds a reference into
it. Construction allocates a fresh cell (`Object.freeze([...source])` /
`Object.freeze(parsed)`); no operation ever writes an existing cell. -/
structure Store where
  cells : List (List MComp)
deriving DecidableEq, Repr

/-- A name value in the heap model: representation, delimiter, and the
reference to its frozen component array. -/
structure HName where
  rep : NameRep
  delim : Char
  ref : Nat
deriving DecidableEq, Repr

/-- Read a component array out of the store. -/
def derefS (st : Store) (r : Nat) : List MComp :=
  st.cells.getD r []

/-- Allocate a fresh frozen component array. -/
def allocS (st : Store) (ps : List MComp) : Store × Nat :=
  (⟨st.cells ++ [ps]⟩, st.cells.length)

/-- A structural edit in the heap model: `copyComponents` reads the
receiver's cell into a temporary array, the list transformation runs on
that copy, and the factory method constructs a new value whose component
array is freshly allocated; the receiver's cell is never written. -/
def editS (st : Store) (n : HName) (f : List MComp → Res (List MComp)) :
    Res (Store × HName) :=
  ((f (derefS st n.ref)).bind (constructComps n.rep n.delim)).bind
    (fun ps =>
      let a := allocS st ps
      .ok (a.1, ⟨n.rep, n.delim, a.2⟩))

/-- `setComponent` in the heap model. -/
def setComponentS (st : Store) (n : HName) (i : Nat) (c : MComp) : Res (Store × HName) :=
  editS st n (fun ps => setComponentCore n.delim ps i c)

/-- `insert` in the heap model. -/
def insertS (st : Store) (n : HName) (i : Nat) (c : MComp) : Res (Store × HName) :=
  editS st n (fun ps => insertCore n.delim ps i c)

/-- `append` in the heap model. -/
def appendS (st : Store) (n : HName) (c : MComp) : Res (Store × HName) :=
  editS st n (fun ps => appendCore n.delim ps c)

/-- `remove` in the heap model. -/
def removeS (st : Store) (n : HName) (i : Nat) : Res (Store × HName) :=
  editS st n (fun ps => removeCore ps i)

/-- `concat` in the heap model: reads both operands' cells. -/
def concatS (st : Store) (a b : HName) : Res (Store × HName) :=
  editS st a (fun ps => .ok (ps ++ derefS st b.ref))

/-- `getNoComponents` in the heap model. -/
def getNoComponentsS (st : Store) (n : HName) : Nat :=
  (derefS st n.ref).length

/-- `getComponent` in the heap model. -/
def getComponentS (st : Store) (n : HName) (i : Nat) : Res MComp :=
  match (derefS st n.ref)[i]? with
  | some c => .ok c
  | none => .err .illegalArgument

/-- Name values reachable through the public interface: a constructor call
that returns normally followed by any sequence of edit operations that
return normally. -/
inductive Reachable : NameValue → Prop where
  | fromArray (source : List MComp) (d : Char) (n : NameValue) :
      StringArrayName.make source d = .ok n → Reachable n
  | fromString (source : List Char) (d : Char) (n : NameValue) :
      StringName.make source d = .ok n → Reachable n
  | ofSetComponent (a : NameValue) (i : Nat) (c : MComp) (n : NameValue) :
      Reachable a → setComponent a i c = .ok n → Reachable n
  | ofInsert (a : NameValue) (i : Nat) (c : MComp) (n : NameValue) :
      Reachable a → insert a i c = .ok n → Reachable n
  | ofAppend (a : NameValue) (c : MComp) (n : NameValue) :
      Reachable a → append a c = .ok n → Reachable n
  | ofRemove (a : NameValue) (i : Nat) (n : NameValue) :
      Reachable a → remove a i = .ok n → Reachable n
  | ofConcat (a b : NameValue) (n : NameValue) :
      Reachable a → Reachable b → concat a b = .ok n → Reachable n

/-! ## Helper lemmas -/

/-- Two-step list induction matching the escape-pair consumption of the
masking engine. -/
theorem twoStepInduction {motive : List Char → Prop} (emp : motive [])
    (single : ∀ c, motive [c])
    (pair : ∀ c c2 rest, motive rest → motive (c2 :: rest) → motive (c :: c2 :: rest)) :
    ∀ m, motive m
  | [] => emp
  | [c] => single c
  | c :: c2 :: rest =>
    pair c c2 rest (twoStepInduction emp single pair rest)
      (twoStepInduction emp single pair (c2 :: rest))

theorem unescape_esc (c2 : Char) (rest2 : List Char) :
    unescape (ESCAPE_CHARACTER :: c2 :: rest2) = c2 :: unescape rest2 := by
  simp [unescape]

theorem unescape_cons_of_ne (c : Char) (rest : List Char) (h : c ≠ ESCAPE_CHARACTER) :
    unescape (c :: rest) = c :: unescape rest := by
  cases rest <;> simp [unescape, h]

theorem validMasked_esc (d c2 : Char) (rest2 : List Char) :
    validMasked d (ESCAPE_CHARACTER :: c2 :: rest2) = validMasked d rest2 := by
  simp [validMasked]

theorem validMasked_cons_of_ne (d c : Char) (rest : List Char) (h : c ≠ ESCAPE_CHARACTER) :
    validMasked d (c :: rest) = if c = d then false else validMasked d rest := by
  cases rest <;> simp [validMasked, h]

theorem parseLoop_esc (d c2 : Char) (cur rest2 : List Char) :
    parseLoop d cur (ESCAPE_CHARACTER :: c2 :: rest2) =
      parseLoop d (cur ++ [ESCAPE_CHARACTER, c2]) rest2 := by
  simp [parseLoop]

theorem parseLoop_cons_of_ne (d c : Char) (cur rest : List Char)
    (h : c ≠ ESCAPE_CHARACTER) :
    parseLoop d cur (c :: rest) =
      if c = d then cur :: parseLoop d [] rest else parseLoop d (cur ++ [c]) rest := by
  cases rest <;> simp [parseLoop, h]

theorem unescape_escapeForDelimiter (d : Char) (r : List Char) :
    unescape (escapeForDelimiter r d) = r := by
  induction r with
  | nil => simp [escapeForDelimiter, unescape]
  | cons c rest ih =>
    by_cases hc : c = ESCAPE_CHARACTER ∨ c = d
    · simp [escapeForDelimiter, hc, unescape, ih]
    · push_neg at hc
      simp [escapeForDelimiter, hc.1, hc.2, unescape_cons_of_ne _ _ hc.1, ih]

theorem validMasked_escapeForDelimiter (d : Char) (r : List Char) :
    validMasked d (escapeForDelimiter r d) = true := by
  induction r with
  | nil => simp [escapeForDelimiter, validMasked]
  | cons c rest ih =>
    by_cases hc : c = ESCAPE_CHARACTER ∨ c = d
    · simp [escapeForDelimiter, hc, validMasked, ih]
    · push_neg at hc
      simp [escapeForDelimiter, hc.1, hc.2, validMasked_cons_of_ne _ _ _ hc.1, ih]

theorem escapeForDelimiter_ne_nil (d : Char) (r : List Char) (h : r ≠ []) :
    escapeForDelimiter r d ≠ [] := by
  cases r with
  | nil => exact absurd rfl h
  | cons c rest =>
    by_cases hc : c = ESCAPE_CHARACTER ∨ c = d
    · simp [escapeForDelimiter, hc]
    · push_neg at hc
      simp [escapeForDelimiter, hc.1, hc.2]

theorem unescape_ne_nil (d : Char) (e : List Char) (hv : validMasked d e = true)
    (h : e ≠ []) : unescape e ≠ [] := by
  cases e with
  | nil => exact absurd rfl h
  | cons c rest =>
    by_cases hc : c = ESCAPE_CHARACTER
    · subst hc
      cases rest with
      | nil => simp [validMasked] at hv
      | cons c2 rest2 => simp [unescape]
    · simp [unescape_cons_of_ne _ _ hc]

theorem not_delim_of_valid_cons (d c : Char) (rest : List Char)
    (hc : ¬ c = ESCAPE_CHARACTER) (h : validMasked d (c :: rest) = true) :
    ¬ c = d := by
  intro hcd
  rw [validMasked_cons_of_ne _ _ _ hc, if_pos hcd] at h
  exact Bool.false_ne_true h

theorem valid_tail_of_valid_cons (d c : Char) (rest : List Char)
    (hc : ¬ c = ESCAPE_CHARACTER) (h : validMasked d (c :: rest) = true) :
    validMasked d rest = true := by
  have hcd := not_delim_of_valid_cons d c rest hc h
  rw [validMasked_cons_of_ne _ _ _ hc, if_neg hcd] at h
  exact h

theorem parseLoop_of_valid (d : Char) :
    ∀ m, validMasked d m = true → ∀ cur, parseLoop d cur m = [cur ++ m] := by
  intro m
  induction m using twoStepInduction with
  | emp => intro _ cur; simp [parseLoop]
  | single c =>
    intro h cur
    by_cases hc : c = ESCAPE_CHARACTER
    · subst hc; simp [validMasked] at h
    · have hcd := not_delim_of_valid_cons d c [] hc h
      rw [parseLoop_cons_of_ne _ _ _ _ hc, if_neg hcd]
      simp [parseLoop]
  | pair c c2 rest ih1 ih2 =>
    intro h cur
    by_cases hc : c = ESCAPE_CHARACTER
    · subst hc
      have h' : validMasked d rest = true := by
        simpa [validMasked_esc] using h
      rw [parseLoop_esc, ih1 h']
      simp
    · have hcd := not_delim_of_valid_cons d c (c2 :: rest) hc h
      have h' := valid_tail_of_valid_cons d c (c2 :: rest) hc h
      rw [parseLoop_cons_of_ne _ _ _ _ hc, if_neg hcd, ih2 h']
      simp

theorem parseLoop_split (d : Char) (hd : ¬ d = ESCAPE_CHARACTER) :
    ∀ m, validMasked d m = true → ∀ cur s,
      parseLoop d cur (m ++ d :: s) = (cur ++ m) :: parseLoop d [] s := by
  intro m
  induction m using twoStepInduction with
  | emp =>
    intro _ cur s
    rw [List.nil_append, parseLoop_cons_of_ne _ _ _ _ hd, if_pos rfl]
    simp
  | single c =>
    intro h cur s
    by_cases hc : c = ESCAPE_CHARACTER
    · subst hc; simp [validMasked] at h
    · have hcd := not_delim_of_valid_cons d c [] hc h
      rw [List.cons_append, List.nil_append,
        parseLoop_cons_of_ne _ _ _ _ hc, if_neg hcd,
        parseLoop_cons_of_ne _ _ _ _ hd, if_pos rfl]
  | pair c c2 rest ih1 ih2 =>
    intro h cur s
    by_cases hc : c = ESCAPE_CHARACTER
    · subst hc
      have h' : validMasked d rest = true := by
        simpa [validMasked_esc] using h
      rw [List.cons_append, List.cons_append, parseLoop_esc, ih1 h' _ s]
      simp
    · have hcd := not_delim_of_valid_cons d c (c2 :: rest) hc h
      have h' := valid_tail_of_valid_cons d c (c2 :: rest) hc h
      rw [List.cons_append, parseLoop_cons_of_ne _ _ _ _ hc, if_neg hcd,
        ih2 h' _ s]
      simp

theorem parseLoop_joinWith (d : Char) (hd : ¬ d = ESCAPE_CHARACTER) :
    ∀ comps, comps ≠ [] → comps.all (validMasked d) = true →
      parseLoop d [] (joinWith d comps) = comps := by
  intro comps
  induction comps with
  | nil => intro h; exact absurd rfl h
  | cons c cs ih =>
    intro _ hall
    simp only [List.all_cons, Bool.and_eq_true] at hall
    cases cs with
    | nil =>
      simpa [joinWith] using parseLoop_of_valid d c hall.1 []
    | cons c2 cs2 =>
      have hjoin : joinWith d (c :: c2 :: cs2) = c ++ d :: joinWith d (c2 :: cs2) := by
        simp [joinWith]
      rw [hjoin, parseLoop_split d hd c hall.1 [] (joinWith d (c2 :: cs2)),
        ih (by simp) hall.2]
      simp

theorem joinWith_ne_nil (d : Char) (comps : List MComp)
    (h1 : comps ≠ []) (h2 : comps ≠ [[]]) : joinWith d comps ≠ [] := by
  match comps with
  | [] => exact absurd rfl h1
  | [c] =>
    have : c ≠ [] := by intro hc; exact h2 (by simp [hc])
    simpa [joinWith] using this
  | c :: c2 :: cs => simp [joinWith]

theorem parseMaskedName_of_ne_nil (d : Char) (s : List Char) (h : s ≠ []) :
    parseMaskedName d s = parseLoop d [] s := by
  cases s with
  | nil => exact absurd rfl h
  | cons c rest => simp [parseMaskedName]

theorem parseMaskedName_joinWith (d : Char) (hd : ¬ d = ESCAPE_CHARACTER)
    (comps : List MComp) (h2 : comps ≠ [[]])
    (hall : comps.all (validMasked d) = true) :
    parseMaskedName d (joinWith d comps) = comps := by
  cases hc : comps with
  | nil => simp [joinWith, parseMaskedName]
  | cons c cs =>
    rw [← hc]
    rw [parseMaskedName_of_ne_nil d _ (joinWith_ne_nil d comps (by rw [hc]; simp) h2)]
    exact parseLoop_joinWith d hd comps (by rw [hc]; simp) hall

theorem escTargetsOk_esc (d c2 : Char) (rest2 : List Char) :
    escTargetsOk d (ESCAPE_CHARACTER :: c2 :: rest2) =
      if c2 = ESCAPE_CHARACTER ∨ c2 = d then escTargetsOk d rest2 else false := by
  simp [escTargetsOk]

theorem escTargetsOk_cons_of_ne (d c : Char) (rest : List Char)
    (h : ¬ c = ESCAPE_CHARACTER) :
    escTargetsOk d (c :: rest) = escTargetsOk d rest := by
  cases rest <;> simp [escTargetsOk, h]

theorem compsPairwiseEq_refl : ∀ xs : List MComp, compsPairwiseEq xs xs = true := by
  intro xs
  induction xs with
  | nil => simp [compsPairwiseEq]
  | cons x rest ih => simp [compsPairwiseEq, ih]

theorem compsPairwiseEq_iff_eq :
    ∀ xs ys : List MComp, xs.length = ys.length →
      (compsPairwiseEq xs ys = true ↔ xs = ys) := by
  intro xs
  induction xs with
  | nil =>
    intro ys hl
    cases ys with
    | nil => simp [compsPairwiseEq]
    | cons y ys => simp at hl
  | cons x rest ih =>
    intro ys hl
    cases ys with
    | nil => simp at hl
    | cons y ys =>
      simp only [List.length_cons, Nat.succ.injEq] at hl
      simp [compsPairwiseEq, ih ys hl, and_comm]

/-! ## Claim C7 -/

/-- C7: Unescape∘Escape identity — for every raw string `r` and every
single-character delimiter `d`, `unescape(escapeForDelimiter(r, d)) == r`. -/
theorem unescape_escape_identity :
    ∀ (r : List Char) (d : Char), unescape (escapeForDelimiter r d) = r :=
  fun r d => unescape_escapeForDelimiter d r

/-! ## Claim C6 -/

/-- C6 (counterexample): the masked string `"\a"` passes `validateMasked`
for delimiter `'.'`, but unescaping it and re-escaping for `'.'` yields
`"a"`, not `"\a"` — the canonical-form law fails for valid masked strings
whose escape precedes an ordinary character. -/
theorem escape_unescape_not_identity_on_valid :
    validMasked '.' ['\\', 'a'] = true ∧
    escapeForDelimiter (unescape ['\\', 'a']) '.' = ['a'] ∧
    ['a'] ≠ ['\\', 'a'] := by
  decide

/-- C6 (amended): for every delimiter `d` and every masked string `m` that
passes `validateMasked` for `d` and in which every escape character is
followed by the escape character or by `d` (canonical masking, the only
form `escapeForDelimiter` produces), `escapeForDelimiter(unescape(m), d)
== m`. -/
theorem escape_unescape_of_canonical (d : Char) :
    ∀ m, validMasked d m = true → escTargetsOk d m = true →
      escapeForDelimiter (unescape m) d = m := by
  intro m
  induction m using twoStepInduction with
  | emp => intro _ _; simp [unescape, escapeForDelimiter]
  | single c =>
    intro hv _
    by_cases hc : c = ESCAPE_CHARACTER
    · subst hc; simp [validMasked] at hv
    · have hcd := not_delim_of_valid_cons d c [] hc hv
      rw [unescape_cons_of_ne _ _ hc]
      simp [unescape, escapeForDelimiter, hc, hcd]
  | pair c c2 rest ih1 ih2 =>
    intro hv ht
    by_cases hc : c = ESCAPE_CHARACTER
    · subst hc
      have hv' : validMasked d rest = true := by simpa [validMasked_esc] using hv
      have hsp : c2 = ESCAPE_CHARACTER ∨ c2 = d := by
        by_contra hn
        rw [escTargetsOk_esc, if_neg hn] at ht
        exact Bool.false_ne_true ht
      have ht' : escTargetsOk d rest = true := by
        rw [escTargetsOk_esc, if_pos hsp] at ht
        exact ht
      rw [unescape_esc]
      simp [escapeForDelimiter, hsp, ih1 hv' ht']
    · have hcd := not_delim_of_valid_cons d c (c2 :: rest) hc hv
      have hv' := valid_tail_of_valid_cons d c (c2 :: rest) hc hv
      have ht' : escTargetsOk d (c2 :: rest) = true := by
        rw [escTargetsOk_cons_of_ne _ _ _ hc] at ht
        exact ht
      rw [unescape_cons_of_ne _ _ hc]
      simp [escapeForDelimiter, hc, hcd, ih2 hv' ht']

/-- C6 (witness): the amended identity applied at `m = "\\\\x"` with
delimiter `'.'`. -/
theorem escape_unescape_of_canonical_witness :
    validMasked '.' ['\\', '\\', 'x'] = true ∧
    escTargetsOk '.' ['\\', '\\', 'x'] = true ∧
    escapeForDelimiter (unescape ['\\', '\\', 'x']) '.' = ['\\', '\\', 'x'] :=
  ⟨by decide, by decide,
    escape_unescape_of_canonical '.' ['\\', '\\', 'x'] (by decide) (by decide)⟩

/-! ## Claim C5 -/

/-- C5: the `StringName` tokenizer — empty input yields zero components;
the escape character consumes itself plus the next character into the
current component (even when that next character is the delimiter); an
unescaped delimiter ends the current component and starts a new one; the
final accumulated component is pushed after the scan; `"a.b"` with `'.'`
yields two components, `"a.b."` yields three (the last empty), and `"///"`
with `'/'` yields four empty components. -/
theorem tokenizer_behavior :
    (∀ d : Char, parseMaskedName d [] = []) ∧
    (∀ (d c2 : Char) (cur rest2 : List Char),
      parseLoop d cur (ESCAPE_CHARACTER :: c2 :: rest2) =
        parseLoop d (cur ++ [ESCAPE_CHARACTER, c2]) rest2) ∧
    (∀ (d : Char) (cur rest : List Char), ¬ d = ESCAPE_CHARACTER →
      parseLoop d cur (d :: rest) = cur :: parseLoop d [] rest) ∧
    (∀ (d : Char) (cur : List Char), parseLoop d cur [] = [cur]) ∧
    parseMaskedName '.' ['a', '.', 'b'] = [['a'], ['b']] ∧
    parseMaskedName '.' ['a', '.', 'b', '.'] = [['a'], ['b'], []] ∧
    parseMaskedName '/' ['/', '/', '/'] = [[], [], [], []] := by
  refine ⟨fun d => rfl, parseLoop_esc, ?_, fun d cur => rfl, by decide, by decide, by decide⟩
  intro d cur rest hd
  rw [parseLoop_cons_of_ne _ _ _ _ hd, if_pos rfl]

/-- C5 (witness): the delimiter-split rule applied at delimiter `'.'`,
accumulator `"x"` and remaining input `"y"`. -/
theorem tokenizer_behavior_witness :
    parseLoop '.' ['x'] ['.', 'y'] = ['x'] :: parseLoop '.' [] ['y'] :=
  tokenizer_behavior.2.2.1 '.' ['x'] ['y'] (by decide)

/-! ## Claim C8 -/

/-- C8: `isEqual` returns `true` iff the two values have the same delimiter
character and identical masked component sequences (same count, pairwise
equal in order); in particular, values with different delimiters are never
equal. -/
theorem isEqual_characterization :
    ∀ a b : NameValue,
      (isEqual a b = true ↔ a.delim = b.delim ∧ a.comps = b.comps) ∧
      (¬ a.delim = b.delim → isEqual a b = false) := by
  intro a b
  constructor
  · constructor
    · intro h
      unfold isEqual at h
      by_cases hdel : a.delim = b.delim
      · rw [if_neg (by simpa using hdel)] at h
        by_cases hlen : getNoComponents a = getNoComponents b
        · rw [if_neg (by simpa using hlen)] at h
          exact ⟨hdel, (compsPairwiseEq_iff_eq a.comps b.comps hlen).mp h⟩
        · rw [if_pos (by simpa using hlen)] at h
          exact absurd h Bool.false_ne_true
      · rw [if_pos (by simpa using hdel)] at h
        exact absurd h Bool.false_ne_true
    · intro ⟨hdel, hcomps⟩
      unfold isEqual
      rw [if_neg (by simpa using hdel),
        if_neg (by simp [getNoComponents, hcomps]), hcomps]
      exact compsPairwiseEq_refl b.comps
  · intro hdel
    unfold isEqual
    rw [if_pos (by simpa using hdel)]

/-- C8 (witness): two values with identical masked components but
delimiters `'.'` and `','` are not equal. -/
theorem isEqual_characterization_witness :
    isEqual ⟨NameRep.arr, '.', [['a'], ['b']]⟩ ⟨NameRep.arr, ',', [['a'], ['b']]⟩ = false :=
  (isEqual_characterization ⟨NameRep.arr, '.', [['a'], ['b']]⟩
    ⟨NameRep.arr, ',', [['a'], ['b']]⟩).2 (by decide)

theorem all_valid_map (d : Char) (f : MComp → MComp)
    (h : ∀ m, validMasked d (f m) = true) :
    ∀ l : List MComp, (l.map f).all (validMasked d) = true := by
  intro l
  induction l with
  | nil => simp
  | cons c cs ih => simp [h, ih]

theorem map_unescape_map_escape (d : Char) :
    ∀ l : List MComp,
      (l.map (fun m => escapeForDelimiter (unescape m) d)).map unescape
        = l.map unescape := by
  intro l
  induction l with
  | nil => simp
  | cons c cs ih => simp [ih, unescape_escapeForDelimiter]

theorem map_escape_ne_single_nil (n : NameValue) (hv : validName n = true)
    (hne : n.comps ≠ [[]]) :
    n.comps.map (fun m => escapeForDelimiter (unescape m) DEFAULT_DELIMITER) ≠ [[]] := by
  intro habs
  unfold validName at hv
  cases hc : n.comps with
  | nil => rw [hc] at habs; simp at habs
  | cons m rest =>
    cases rest with
    | cons m2 r2 => rw [hc] at habs; simp at habs
    | nil =>
      rw [hc] at habs
      simp only [List.map_cons, List.map_nil, List.cons.injEq, and_true] at habs
      have hm : validMasked n.delim m = true := by
        rw [hc] at hv
        simpa using hv
      by_cases hm0 : m = []
      · exact hne (by rw [hc, hm0])
      · exact escapeForDelimiter_ne_nil DEFAULT_DELIMITER _
          (unescape_ne_nil n.delim m hm hm0) habs

/-! ## Claim C1 -/

/-- C1 (counterexample): the name value holding exactly one empty masked
component (delimiter `'.'`) round-trips wrongly — its `asDataString` is the
empty string, which a fresh `StringName` parses into zero components, so
the single empty raw component is lost. -/
theorem asDataString_roundtrip_counterexample :
    validName ⟨NameRep.arr, '.', [[]]⟩ = true ∧
    StringArrayName.make [[]] '.' = .ok ⟨NameRep.arr, '.', [[]]⟩ ∧
    asDataString ⟨NameRep.arr, '.', [[]]⟩ = [] ∧
    StringName.make [] DEFAULT_DELIMITER = .ok ⟨NameRep.str, '.', []⟩ ∧
    (⟨NameRep.arr, '.', [[]]⟩ : NameValue).comps.map unescape = [[]] ∧
    (⟨NameRep.str, '.', []⟩ : NameValue).comps.map unescape = [] ∧
    ([[]] : List (List Char)) ≠ [] := by
  decide

/-- C1 (amended): for every name value whose masked components are valid
for its delimiter and whose component sequence is not exactly one empty
component, feeding `asDataString()` with the canonical default delimiter
`'.'` into a fresh `StringName` succeeds and reconstructs a name whose raw
(unescaped) component sequence equals that of the original. -/
theorem asDataString_roundtrip (n : NameValue) (hv : validName n = true)
    (hne : n.comps ≠ [[]]) :
    StringName.make (asDataString n) DEFAULT_DELIMITER =
      .ok ⟨NameRep.str, DEFAULT_DELIMITER,
        n.comps.map (fun m => escapeForDelimiter (unescape m) DEFAULT_DELIMITER)⟩ ∧
    (n.comps.map (fun m => escapeForDelimiter (unescape m) DEFAULT_DELIMITER)).map
        unescape
      = n.comps.map unescape := by
  have hall :
      (n.comps.map (fun m => escapeForDelimiter (unescape m) DEFAULT_DELIMITER)).all
        (validMasked DEFAULT_DELIMITER) = true :=
    all_valid_map _ _ (fun m => validMasked_escapeForDelimiter _ _) _
  have hparse :
      parseMaskedName DEFAULT_DELIMITER
        (joinWith DEFAULT_DELIMITER
          (n.comps.map (fun m => escapeForDelimiter (unescape m) DEFAULT_DELIMITER)))
        = n.comps.map (fun m => escapeForDelimiter (unescape m) DEFAULT_DELIMITER) :=
    parseMaskedName_joinWith DEFAULT_DELIMITER (by decide) _
      (map_escape_ne_single_nil n hv hne) hall
  refine ⟨?_, map_unescape_map_escape DEFAULT_DELIMITER n.comps⟩
  unfold StringName.make parseValidate asDataString
  simp only [hparse, hall, if_true, Res.bind]

/-- C1 (witness): the round-trip applied to the `'/'`-delimited value with
masked components `["a\\.b", "c"]`. -/
theorem asDataString_roundtrip_witness :
    StringName.make (asDataString ⟨NameRep.arr, '/', [['a', '\\', '.', 'b'], ['c']]⟩)
        DEFAULT_DELIMITER =
      .ok ⟨NameRep.str, DEFAULT_DELIMITER,
        (⟨NameRep.arr, '/', [['a', '\\', '.', 'b'], ['c']]⟩ : NameValue).comps.map
          (fun m => escapeForDelimiter (unescape m) DEFAULT_DELIMITER)⟩ ∧
    ((⟨NameRep.arr, '/', [['a', '\\', '.', 'b'], ['c']]⟩ : NameValue).comps.map
        (fun m => escapeForDelimiter (unescape m) DEFAULT_DELIMITER)).map unescape
      = (⟨NameRep.arr, '/', [['a', '\\', '.', 'b'], ['c']]⟩ : NameValue).comps.map
          unescape :=
  asDataString_roundtrip ⟨NameRep.arr, '/', [['a', '\\', '.', 'b'], ['c']]⟩
    (by decide) (by decide)

/-! ## Claim C2 -/

/-- C2 (counterexample): two inputs where the representations are
distinguishable. With delimiter `'.'` and component list `[""]`, the
`StringArrayName` holds one component but the `StringName` built from the
joined string (the empty string) holds zero. With delimiter `'\\'` (the
escape character) and components `["a", "b"]`, the joined string `"a\\b"`
re-parses as a single component. -/
theorem representations_distinguishable_counterexample :
    (StringArrayName.make [[]] '.' = .ok ⟨NameRep.arr, '.', [[]]⟩ ∧
     joinWith '.' [[]] = [] ∧
     StringName.make [] '.' = .ok ⟨NameRep.str, '.', []⟩ ∧
     getNoComponents ⟨NameRep.arr, '.', [[]]⟩ = 1 ∧
     getNoComponents ⟨NameRep.str, '.', []⟩ = 0) ∧
    (StringArrayName.make [['a'], ['b']] '\\' = .ok ⟨NameRep.arr, '\\', [['a'], ['b']]⟩ ∧
     joinWith '\\' [['a'], ['b']] = ['a', '\\', 'b'] ∧
     StringName.make ['a', '\\', 'b'] '\\' = .ok ⟨NameRep.str, '\\', [['a', '\\', 'b']]⟩ ∧
     getNoComponents ⟨NameRep.arr, '\\', [['a'], ['b']]⟩ = 2 ∧
     getNoComponents ⟨NameRep.str, '\\', [['a', '\\', 'b']]⟩ = 1) := by
  decide

/-- C2 (amended): for every single-character delimiter `d` other than the
escape character and every list of masked components valid for `d` that is
not exactly one empty component, the `StringArrayName` built from the list
and the `StringName` built from the components joined with `d` both
construct successfully and are indistinguishable through the contract
interface: equal `getNoComponents`, equal `getComponent(i)` for every `i`,
equal `asString`, equal `asDataString`, and `isEqual` holds between them. -/
theorem representations_indistinguishable (d : Char) (comps : List MComp)
    (hd : ¬ d = ESCAPE_CHARACTER) (hall : comps.all (validMasked d) = true)
    (hne : comps ≠ [[]]) :
    StringArrayName.make comps d = .ok ⟨NameRep.arr, d, comps⟩ ∧
    StringName.make (joinWith d comps) d = .ok ⟨NameRep.str, d, comps⟩ ∧
    getNoComponents ⟨NameRep.arr, d, comps⟩ = getNoComponents ⟨NameRep.str, d, comps⟩ ∧
    (∀ i, getComponent ⟨NameRep.arr, d, comps⟩ i = getComponent ⟨NameRep.str, d, comps⟩ i) ∧
    asString ⟨NameRep.arr, d, comps⟩ = asString ⟨NameRep.str, d, comps⟩ ∧
    asDataString ⟨NameRep.arr, d, comps⟩ = asDataString ⟨NameRep.str, d, comps⟩ ∧
    isEqual ⟨NameRep.arr, d, comps⟩ ⟨NameRep.str, d, comps⟩ = true := by
  refine ⟨?_, ?_, rfl, fun i => rfl, rfl, rfl, ?_⟩
  · simp [StringArrayName.make, hall]
  · unfold StringName.make parseValidate
    rw [parseMaskedName_joinWith d hd comps hne hall]
    simp [hall, Res.bind]
  · simp [isEqual, getNoComponents, compsPairwiseEq_refl]

/-- C2 (witness): the equivalence applied at delimiter `'.'` and masked
components `["a", "b"]`. -/
theorem representations_indistinguishable_witness :
    isEqual ⟨NameRep.arr, '.', [['a'], ['b']]⟩ ⟨NameRep.str, '.', [['a'], ['b']]⟩ = true :=
  (representations_indistinguishable '.' [['a'], ['b']]
    (by decide) (by decide) (by decide)).2.2.2.2.2.2

/-! ## Claim C3 -/

/-- C3 (counterexample): two pairs of constructible, compatible name values
where `concat` returns normally but the component count is not the sum.
An empty `StringName` (delimiter `'.'`) concatenated with a
`StringArrayName` holding one empty component yields zero components, not
one: the joined backing string is empty and re-parses to nothing. A
one-component `StringName` with delimiter `'\\'` concatenated with a
one-component array name yields one component, not two: the joined string
`"a\\b"` re-parses as a single component because the delimiter is the
escape character. -/
theorem concat_length_counterexample :
    (StringName.make [] '.' = .ok ⟨NameRep.str, '.', []⟩ ∧
     StringArrayName.make [[]] '.' = .ok ⟨NameRep.arr, '.', [[]]⟩ ∧
     concat ⟨NameRep.str, '.', []⟩ ⟨NameRep.arr, '.', [[]]⟩
       = .ok ⟨NameRep.str, '.', []⟩ ∧
     getNoComponents ⟨NameRep.str, '.', []⟩ = 0 ∧
     getNoComponents ⟨NameRep.arr, '.', [[]]⟩ = 1) ∧
    (StringName.make ['a'] '\\' = .ok ⟨NameRep.str, '\\', [['a']]⟩ ∧
     StringArrayName.make [['b']] '\\' = .ok ⟨NameRep.arr, '\\', [['b']]⟩ ∧
     concat ⟨NameRep.str, '\\', [['a']]⟩ ⟨NameRep.arr, '\\', [['b']]⟩
       = .ok ⟨NameRep.str, '\\', [['a', '\\', 'b']]⟩ ∧
     getNoComponents ⟨NameRep.str, '\\', [['a', '\\', 'b']]⟩ = 1) := by
  decide

/-- C3 (amended): for all compatible name values `a` and `b` (every
component of `b` valid for `a`'s delimiter), `concat` returns normally
with component count equal to the sum — unconditionally when the receiver
is a `StringArrayName`, and for a `StringName` receiver provided its
delimiter is not the escape character and the combined component list is
not exactly one empty component. -/
theorem concat_length (a b : NameValue) (hva : validName a = true)
    (hcompat : b.comps.all (validMasked a.delim) = true) :
    (a.rep = NameRep.arr →
      concat a b = .ok ⟨NameRep.arr, a.delim, a.comps ++ b.comps⟩ ∧
      getNoComponents (⟨NameRep.arr, a.delim, a.comps ++ b.comps⟩ : NameValue)
        = getNoComponents a + getNoComponents b) ∧
    (a.rep = NameRep.str → ¬ a.delim = ESCAPE_CHARACTER →
      a.comps ++ b.comps ≠ [[]] →
      concat a b = .ok ⟨NameRep.str, a.delim, a.comps ++ b.comps⟩ ∧
      getNoComponents (⟨NameRep.str, a.delim, a.comps ++ b.comps⟩ : NameValue)
        = getNoComponents a + getNoComponents b) := by
  have hall : (a.comps ++ b.comps).all (validMasked a.delim) = true := by
    unfold validName at hva
    rw [List.all_append, hva, hcompat]
    rfl
  constructor
  · intro harr
    refine ⟨?_, by simp [getNoComponents]⟩
    simp [concat, withComponents, constructComps, harr, hall, Res.bind]
  · intro hstr hd hne
    refine ⟨?_, by simp [getNoComponents]⟩
    unfold concat withComponents constructComps parseValidate
    rw [hstr]
    simp only [parseMaskedName_joinWith a.delim hd _ hne hall, hall, if_true, Res.bind]

/-- C3 (witness): the sum law applied to two one-component
`StringArrayName` values with delimiter `'.'`. -/
theorem concat_length_witness :
    concat ⟨NameRep.arr, '.', [['a']]⟩ ⟨NameRep.arr, '.', [['b']]⟩
      = .ok ⟨NameRep.arr, '.', [['a'], ['b']]⟩ ∧
    getNoComponents (⟨NameRep.arr, '.', [['a'], ['b']]⟩ : NameValue)
      = getNoComponents ⟨NameRep.arr, '.', [['a']]⟩
        + getNoComponents ⟨NameRep.arr, '.', [['b']]⟩ :=
  (concat_length ⟨NameRep.arr, '.', [['a']]⟩ ⟨NameRep.arr, '.', [['b']]⟩
    (by decide) (by decide)).1 rfl

/-! ## Claim C4 -/

/-- C4 (counterexample): a `StringName` receiver does not fail when a
component of `other` contains an unescaped occurrence of the receiver's
delimiter: `concat` joins and re-tokenizes, silently splitting the
offending component. Here `"b.c"` (valid for `'/'`, invalid for `'.'`) is
split into `"b"` and `"c"` and a value is produced. -/
theorem concat_no_masking_error_counterexample :
    StringName.make ['a'] '.' = .ok ⟨NameRep.str, '.', [['a']]⟩ ∧
    StringArrayName.make [['b', '.', 'c']] '/' = .ok ⟨NameRep.arr, '/', [['b', '.', 'c']]⟩ ∧
    validMasked '.' ['b', '.', 'c'] = false ∧
    concat ⟨NameRep.str, '.', [['a']]⟩ ⟨NameRep.arr, '/', [['b', '.', 'c']]⟩
      = .ok ⟨NameRep.str, '.', [['a'], ['b'], ['c']]⟩ := by
  decide

/-- C4 (amended): on a `StringArrayName` receiver, `concat` validates every
masked component of `other` against the receiver's delimiter and fails
with a MaskingError (`InvalidStateException`) producing no value when some
component is invalid; on a `StringName` receiver the joined backing string
is re-tokenized instead, so such a component is split at the unescaped
delimiters rather than rejected (see the counterexample). -/
theorem concat_masking_error_on_array (a b : NameValue)
    (ha : a.rep = NameRep.arr) (hva : validName a = true)
    (hbad : ¬ b.comps.all (validMasked a.delim) = true) :
    concat a b = .err .invalidState := by
  unfold validName at hva
  have hfalse : (a.comps ++ b.comps).all (validMasked a.delim) = false := by
    rw [List.all_append, hva, Bool.true_and]
    cases hb : b.comps.all (validMasked a.delim) with
    | false => rfl
    | true => exact absurd hb hbad
  simp [concat, withComponents, constructComps, ha, hfalse, Res.bind]

/-- C4 (witness): a `StringArrayName` receiver with delimiter `'.'` rejects
concatenation with a value holding the component `"b.c"`. -/
theorem concat_masking_error_on_array_witness :
    concat ⟨NameRep.arr, '.', [['a']]⟩ ⟨NameRep.arr, '/', [['b', '.', 'c']]⟩
      = .err .invalidState :=
  concat_masking_error_on_array ⟨NameRep.arr, '.', [['a']]⟩
    ⟨NameRep.arr, '/', [['b', '.', 'c']]⟩ rfl (by decide) (by decide)

/-! ## Claim C9 -/

theorem editS_frame (st : Store) (n : HName) (f : List MComp → Res (List MComp))
    (href : n.ref < st.cells.length) (st' : Store) (n' : HName)
    (h : editS st n f = .ok (st', n')) :
    (∀ r, r < st.cells.length → derefS st' r = derefS st r) ∧
    n'.ref = st.cells.length ∧ ¬ n'.ref = n.ref := by
  unfold editS at h
  cases hres : (f (derefS st n.ref)).bind (constructComps n.rep n.delim) with
  | err e => rw [hres] at h; simp [Res.bind] at h
  | ok ps =>
    rw [hres] at h
    simp only [Res.bind, allocS, Res.ok.injEq, Prod.mk.injEq] at h
    obtain ⟨hst, hn⟩ := h
    subst hst
    subst hn
    refine ⟨?_, rfl, ?_⟩
    · intro r hr
      simp [derefS, List.getD_eq_getElem?_getD, List.getElem?_append, hr]
    · intro heq
      have : st.cells.length = n.ref := heq
      omega

theorem editS_preserves_receiver (st : Store) (n : HName)
    (f : List MComp → Res (List MComp)) (href : n.ref < st.cells.length)
    (st' : Store) (n' : HName) (h : editS st n f = .ok (st', n')) :
    getNoComponentsS st' n = getNoComponentsS st n ∧
    (∀ j, getComponentS st' n j = getComponentS st n j) ∧
    ¬ n'.ref = n.ref := by
  obtain ⟨hpres, _, hne⟩ := editS_frame st n f href st' n' h
  have hd := hpres n.ref href
  exact ⟨by simp [getNoComponentsS, hd], fun j => by simp [getComponentS, hd], hne⟩

/-- C9: in the heap model, every edit operation (`setComponent`, `insert`,
`append`, `remove`, `concat`) that returns normally leaves the receiver's
own `getNoComponents()` and every `getComponent(j)` unchanged, and the
returned value's component array lives in a freshly allocated cell
distinct from the receiver's — the new value shares no mutable state with
its source. -/
theorem edit_operations_preserve_receiver (st : Store) (n : HName)
    (href : n.ref < st.cells.length) :
    (∀ i c st' n', setComponentS st n i c = .ok (st', n') →
      getNoComponentsS st' n = getNoComponentsS st n ∧
      (∀ j, getComponentS st' n j = getComponentS st n j) ∧ ¬ n'.ref = n.ref) ∧
    (∀ i c st' n', insertS st n i c = .ok (st', n') →
      getNoComponentsS st' n = getNoComponentsS st n ∧
      (∀ j, getComponentS st' n j = getComponentS st n j) ∧ ¬ n'.ref = n.ref) ∧
    (∀ c st' n', appendS st n c = .ok (st', n') →
      getNoComponentsS st' n = getNoComponentsS st n ∧
      (∀ j, getComponentS st' n j = getComponentS st n j) ∧ ¬ n'.ref = n.ref) ∧
    (∀ i st' n', removeS st n i = .ok (st', n') →
      getNoComponentsS st' n = getNoComponentsS st n ∧
      (∀ j, getComponentS st' n j = getComponentS st n j) ∧ ¬ n'.ref = n.ref) ∧
    (∀ b st' n', concatS st n b = .ok (st', n') →
      getNoComponentsS st' n = getNoComponentsS st n ∧
      (∀ j, getComponentS st' n j = getComponentS st n j) ∧ ¬ n'.ref = n.ref) :=
  ⟨fun _ _ st' n' h => editS_preserves_receiver st n _ href st' n' h,
   fun _ _ st' n' h => editS_preserves_receiver st n _ href st' n' h,
   fun _ st' n' h => editS_preserves_receiver st n _ href st' n' h,
   fun _ st' n' h => editS_preserves_receiver st n _ href st' n' h,
   fun _ st' n' h => editS_preserves_receiver st n _ href st' n' h⟩

/-- C9 (witness): appending `"b"` to a one-component value leaves the
receiver's observations unchanged and allocates a distinct cell. -/
theorem edit_operations_preserve_receiver_witness :
    appendS ⟨[[['a']]]⟩ ⟨NameRep.arr, '.', 0⟩ ['b']
      = .ok (⟨[[['a']], [['a'], ['b']]]⟩, ⟨NameRep.arr, '.', 1⟩) ∧
    getNoComponentsS ⟨[[['a']], [['a'], ['b']]]⟩ ⟨NameRep.arr, '.', 0⟩
      = getNoComponentsS ⟨[[['a']]]⟩ ⟨NameRep.arr, '.', 0⟩ ∧
    getComponentS ⟨[[['a']], [['a'], ['b']]]⟩ ⟨NameRep.arr, '.', 0⟩ 0
      = getComponentS ⟨[[['a']]]⟩ ⟨NameRep.arr, '.', 0⟩ 0 ∧
    ¬ (⟨NameRep.arr, '.', 1⟩ : HName).ref = (⟨NameRep.arr, '.', 0⟩ : HName).ref := by
  have h :=
    (edit_operations_preserve_receiver ⟨[[['a']]]⟩ ⟨NameRep.arr, '.', 0⟩
      (by decide)).2.2.1 ['b'] ⟨[[['a']], [['a'], ['b']]]⟩ ⟨NameRep.arr, '.', 1⟩
      (by decide)
  exact ⟨by decide, h.1, h.2.1 0, h.2.2⟩

/-! ## Claim C10 -/

theorem validName_of_withComponents (a : NameValue) (ps : List MComp) (n : NameValue)
    (h : withComponents a ps = .ok n) : validName n = true := by
  unfold withComponents constructComps parseValidate at h
  cases ha : a.rep with
  | arr =>
    rw [ha] at h
    by_cases hall : ps.all (validMasked a.delim) = true
    · rw [if_pos hall] at h
      simp only [Res.bind, Res.ok.injEq] at h
      rw [← h]
      simpa [validName] using hall
    · rw [if_neg hall] at h
      simp [Res.bind] at h
  | str =>
    rw [ha] at h
    by_cases hall :
        (parseMaskedName a.delim (joinWith a.delim ps)).all (validMasked a.delim) = true
    · rw [if_pos hall] at h
      simp only [Res.bind, Res.ok.injEq] at h
      rw [← h]
      simpa [validName] using hall
    · rw [if_neg hall] at h
      simp [Res.bind] at h

theorem validName_of_make_arr (source : List MComp) (d : Char) (n : NameValue)
    (h : StringArrayName.make source d = .ok n) : validName n = true := by
  unfold StringArrayName.make at h
  by_cases hall : source.all (validMasked d) = true
  · rw [if_pos hall] at h
    simp only [Res.ok.injEq] at h
    rw [← h]
    simpa [validName] using hall
  · rw [if_neg hall] at h
    simp at h

theorem validName_of_make_str (source : List Char) (d : Char) (n : NameValue)
    (h : StringName.make source d = .ok n) : validName n = true := by
  unfold StringName.make parseValidate at h
  by_cases hall : (parseMaskedName d source).all (validMasked d) = true
  · rw [if_pos hall] at h
    simp only [Res.bind, Res.ok.injEq] at h
    rw [← h]
    simpa [validName] using hall
  · rw [if_neg hall] at h
    simp [Res.bind] at h

theorem validName_of_bind_withComponents (a : NameValue) (r : Res (List MComp))
    (n : NameValue) (h : r.bind (withComponents a) = .ok n) : validName n = true := by
  cases r with
  | err e => simp [Res.bind] at h
  | ok ps => exact validName_of_withComponents a ps n h

/-- C10: every name value reachable through the public interface — a
constructor call that returns normally followed by any sequence of edit
operations that return normally — stores only components that pass
`validateMasked` for its delimiter; the delimiter is a single character by
construction (`Char` in the embedding, enforced by the constructor's
length check in the source). -/
theorem reachable_names_valid : ∀ n, Reachable n → validName n = true := by
  intro n h
  induction h with
  | fromArray source d n hmk => exact validName_of_make_arr source d n hmk
  | fromString source d n hmk => exact validName_of_make_str source d n hmk
  | ofSetComponent a i c n ha hop ih => exact validName_of_bind_withComponents a _ n hop
  | ofInsert a i c n ha hop ih => exact validName_of_bind_withComponents a _ n hop
  | ofAppend a c n ha hop ih => exact validName_of_bind_withComponents a _ n hop
  | ofRemove a i n ha hop ih => exact validName_of_bind_withComponents a _ n hop
  | ofConcat a b n ha hb hop iha ihb => exact validName_of_withComponents a _ n hop

/-- C10 (witness): the invariant evaluated on the constructed value
`StringArrayName(["a"], '.')`. -/
theorem reachable_names_valid_witness :
    validName ⟨NameRep.arr, '.', [['a']]⟩ = true :=
  reachable_names_valid ⟨NameRep.arr, '.', [['a']]⟩
    (Reachable.fromArray [['a']] '.' ⟨NameRep.arr, '.', [['a']]⟩ (by decide))
